import Mathlib

/-!
# Verification of the localization-string analyzer

Shallow embedding of the Go localization-string analyzer: the line
classifier (trim + the regular expression pattern quote, non-quote run,
quote, spaces, equals, spaces, quote, non-quote run, quote, spaces,
semicolon), the file analyzer of `analyzeLocalizationFile`, the cleaned
output generator of `createCleanFile`, the `countKeys` and
`findKeyOccurrences` utilities, and the path helpers of the CLI entry
point (`filepath.Clean`, `Dir`, `Base`, `Ext`, `Join`,
`createUniqueFilename`).

Lines of text are modelled as `List Char`.  Go maps keyed by key strings
are modelled as functions `List Char → Option _` updated pointwise; nil
map access returning the empty slice is modelled with `Option.getD []`.
-/

namespace LocAnalyzer

/-- Whitespace recognized by Go `unicode.IsSpace` (used by
`strings.TrimSpace`): the ASCII spaces plus the Unicode `White_Space`
code points. -/
def goIsSpace (c : Char) : Bool :=
  c == '\t' || c == '\n' || c == '\x0b' || c == '\x0c' || c == '\r' || c == ' ' ||
  c == '\x85' || c == '\xa0' ||
  c == '\u1680' || ('\u2000' <= c && c <= '\u200a') ||
  c == '\u2028' || c == '\u2029' || c == '\u202f' || c == '\u205f' || c == '\u3000'

/-- Whitespace recognized by the RE2 class `\s` used inside the pattern:
tab, newline, form feed, carriage return and space. -/
def regexIsSpace (c : Char) : Bool :=
  c == '\t' || c == '\n' || c == '\x0c' || c == '\r' || c == ' '

/-- `strings.TrimSpace`: drop leading and trailing whitespace. -/
def trimSpace (s : List Char) : List Char :=
  ((s.dropWhile goIsSpace).reverse.dropWhile goIsSpace).reverse

/-- `strings.HasPrefix(trimmedLine, "//")` for the comment check. -/
def startsWithSlashSlash : List Char → Bool
  | c1 :: c2 :: _ => c1 == '/' && c2 == '/'
  | _ => false

/-- The skip condition applied to each line before the pattern is tried:
`trimmedLine == "" || strings.HasPrefix(trimmedLine, "//")`. -/
def isSkippedLine (line : List Char) : Bool :=
  (trimSpace line).isEmpty || startsWithSlashSlash (trimSpace line)

/-- Match one character of the pattern. -/
def expectChar (c : Char) : List Char → Option (List Char)
  | x :: rest => if x = c then some rest else none
  | [] => none

/-- Consume a nonempty maximal run of non-quote characters, the
translation of a greedy `[^"]+` group followed by a literal `"`. -/
def readRun (cs : List Char) : Option (List Char × List Char) :=
  let k := cs.takeWhile (fun c => c != '"')
  if k.isEmpty then none else some (k, cs.dropWhile (fun c => c != '"'))

/-- Attempt the pattern `"([^"]+)"\s*=\s*"([^"]+)"\s*;` anchored at the
head of `cs`.  Because `[^"]+` cannot cross a quote and `\s*` is always
followed by a non-space literal, the RE2 leftmost-first match at a fixed
start position is this deterministic parse. -/
def matchFrom (cs : List Char) : Option (List Char × List Char) :=
  (expectChar '"' cs).bind fun r0 =>
  (readRun r0).bind fun kr =>
  (expectChar '"' kr.2).bind fun r2 =>
  (expectChar '=' (r2.dropWhile regexIsSpace)).bind fun r4 =>
  (expectChar '"' (r4.dropWhile regexIsSpace)).bind fun r6 =>
  (readRun r6).bind fun vr =>
  (expectChar '"' vr.2).bind fun r8 =>
  (expectChar ';' (r8.dropWhile regexIsSpace)).map fun _ => (kr.1, vr.1)

/-- `FindStringSubmatch`: the match whose start position is leftmost. -/
def findFirstMatch : List Char → Option (List Char × List Char)
  | [] => none
  | c :: rest =>
    match matchFrom (c :: rest) with
    | some kv => some kv
    | none => findFirstMatch rest

/-- The three-way classification of one line (spec §4.1). -/
inductive LineClass where
  | passthrough
  | entry (key value : List Char)
  | unrecognized
deriving DecidableEq

/-- The line classifier: the skip condition first, then the first match
of the key/value pattern, as in each of the three tools. -/
def classifyLine (line : List Char) : LineClass :=
  if isSkippedLine line then .passthrough
  else
    match findFirstMatch line with
    | some (k, v) => .entry k v
    | none => .unrecognized

/-- One recognized key-value occurrence (`KeyValue` in the source). -/
structure KeyValue where
  key : List Char
  value : List Char
  lineNum : Nat
deriving DecidableEq

/-- Pointwise update of a map modelled as a function into `Option`. -/
def update {V : Type} (m : List Char → Option V) (k : List Char) (v : V) :
    List Char → Option V :=
  fun k' => if k' = k then some v else m k'

/-- The mutable state of the scan loop of `analyzeLocalizationFile`:
`keyEntries` (the occurrence index), `duplicateKeys`, `uniqueEntries`
(the first-occurrence map) and the retained raw lines. -/
structure ScanState where
  keyEntries : List Char → Option (List KeyValue)
  duplicateKeys : List Char → Option (List KeyValue)
  uniqueEntries : List Char → Option KeyValue
  rawLines : List (List Char)

/-- The empty maps and line list created before the scan. -/
def initState : ScanState :=
  { keyEntries := fun _ => none
    duplicateKeys := fun _ => none
    uniqueEntries := fun _ => none
    rawLines := [] }

/-- One iteration of the scan loop: the raw line is always retained;
skipped lines contribute nothing else; a pattern match stores the first
occurrence in `uniqueEntries` if the key is new, appends the entry to
`keyEntries`, and records the key in `duplicateKeys` whenever the
occurrence list now has more than one element. -/
def scanStep (st : ScanState) (lineNum : Nat) (line : List Char) : ScanState :=
  match classifyLine line with
  | .entry k v =>
    let entry : KeyValue := ⟨k, v, lineNum⟩
    let newList := (st.keyEntries k).getD [] ++ [entry]
    { rawLines := st.rawLines ++ [line]
      uniqueEntries :=
        match st.uniqueEntries k with
        | none => update st.uniqueEntries k entry
        | some _ => st.uniqueEntries
      keyEntries := update st.keyEntries k newList
      duplicateKeys :=
        if 1 < newList.length then update st.duplicateKeys k newList
        else st.duplicateKeys }
  | _ => { st with rawLines := st.rawLines ++ [line] }

/-- The scan loop from a given state and 1-based line counter. -/
def scanFrom (st : ScanState) (lineNum : Nat) : List (List Char) → ScanState
  | [] => st
  | l :: rest => scanFrom (scanStep st lineNum l) (lineNum + 1) rest

/-- The full scan of a file's lines, counting lines from 1. -/
def scanLines (lines : List (List Char)) : ScanState :=
  scanFrom initState 1 lines

/-- The `KeyValue` produced by one line at line number `n`, if any. -/
def lineEntry (n : Nat) (l : List Char) : Option KeyValue :=
  match classifyLine l with
  | .entry k v => some ⟨k, v, n⟩
  | _ => none

/-- All entries produced by a line list, line numbers starting at `n`. -/
def entriesFrom (n : Nat) : List (List Char) → List KeyValue
  | [] => []
  | l :: rest =>
    match lineEntry n l with
    | some e => e :: entriesFrom (n + 1) rest
    | none => entriesFrom (n + 1) rest

/-- The occurrence sequence of one key, in file order, counting from
line number `n`. -/
def keyOccurrencesFrom (n : Nat) (ls : List (List Char)) (k : List Char) :
    List KeyValue :=
  (entriesFrom n ls).filter (fun e => e.key == k)

/-- The occurrence sequence of one key over a whole file. -/
def keyOccurrences (ls : List (List Char)) (k : List Char) : List KeyValue :=
  keyOccurrencesFrom 1 ls k

/-- The duplicate-report value comparison of `main`: every occurrence
after the first is compared with the first occurrence's value. -/
def allSameValues : List KeyValue → Bool
  | [] => true
  | first :: rest => rest.all (fun e => e.value == first.value)

/-- The loop body of `createCleanFile`: comments and blank lines are
written as-is, a pattern match is written only if its key has not been
written yet, and non-matching lines are written as-is. -/
def cleanGo (written : List (List Char)) : List (List Char) → List (List Char)
  | [] => []
  | l :: rest =>
    match classifyLine l with
    | .passthrough => l :: cleanGo written rest
    | .unrecognized => l :: cleanGo written rest
    | .entry k _ =>
      if k ∈ written then cleanGo written rest
      else l :: cleanGo (k :: written) rest

/-- The cleaned line sequence produced by `createCleanFile` from the
retained raw lines, starting with an empty `writtenKeys` set. -/
def cleanLines (rawLines : List (List Char)) : List (List Char) :=
  cleanGo [] rawLines

/-- `fmt.Fprintln` output: every emitted line is followed by a newline. -/
def renderLines : List (List Char) → List Char
  | [] => []
  | l :: rest => l ++ '\n' :: renderLines rest

/-- Split file content at newline bytes (all segments kept). -/
def splitOnNL : List Char → List (List Char)
  | [] => [[]]
  | c :: rest =>
    if c = '\n' then [] :: splitOnNL rest
    else
      match splitOnNL rest with
      | [] => [[c]]
      | s :: ss => (c :: s) :: ss

/-- `bufio.ScanLines` strips one trailing carriage return per line. -/
def dropCR (l : List Char) : List Char :=
  if l.getLast? = some '\r' then l.dropLast else l

/-- The line sequence a `bufio.Scanner` produces from file content: split
at newlines, drop the empty token after a final newline, strip one
trailing carriage return per line. -/
def splitLines (content : List Char) : List (List Char) :=
  let segs := splitOnNL content
  let segs2 := if segs.getLast? = some [] then segs.dropLast else segs
  segs2.map dropCR

/-- The loop of `countKeys`: `uniqueKeys` is the key set seen so far and
`total` counts every pattern match. -/
def countKeysGo (uniqueKeys : List (List Char)) (total : Nat) :
    List (List Char) → Nat × Nat
  | [] => (uniqueKeys.length, total)
  | l :: rest =>
    match classifyLine l with
    | .entry k _ =>
      let uk := if k ∈ uniqueKeys then uniqueKeys else k :: uniqueKeys
      countKeysGo uk (total + 1) rest
    | _ => countKeysGo uniqueKeys total rest

/-- `countKeys`: the number of unique keys and the total entry count. -/
def countKeys (lines : List (List Char)) : Nat × Nat :=
  countKeysGo [] 0 lines

/-- One occurrence reported by the key checking utility. -/
structure KeyOccurrence where
  value : List Char
  lineNum : Nat
deriving DecidableEq

/-- The loop of `findKeyOccurrences` from line number `n`. -/
def findKeyOccurrencesFrom (keyToFind : List Char) (n : Nat) :
    List (List Char) → List KeyOccurrence
  | [] => []
  | l :: rest =>
    match classifyLine l with
    | .entry k v =>
      if k = keyToFind then
        ⟨v, n⟩ :: findKeyOccurrencesFrom keyToFind (n + 1) rest
      else findKeyOccurrencesFrom keyToFind (n + 1) rest
    | _ => findKeyOccurrencesFrom keyToFind (n + 1) rest

/-- `findKeyOccurrences`: the occurrences of one requested key. -/
def findKeyOccurrences (lines : List (List Char)) (keyToFind : List Char) :
    List KeyOccurrence :=
  findKeyOccurrencesFrom keyToFind 1 lines

/-! ## Path helpers (Go `path/filepath`, unix rules) -/

/-- Split a path at separators; empty segments are kept. -/
def splitOnSlash : List Char → List (List Char)
  | [] => [[]]
  | c :: rest =>
    if c = '/' then [] :: splitOnSlash rest
    else
      match splitOnSlash rest with
      | [] => [[c]]
      | s :: ss => (c :: s) :: ss

/-- The element loop of `filepath.Clean`: empty and `.` elements are
dropped; `..` pops the previous element when one is poppable, is dropped
at the root of a rooted path, and is kept at the head of a relative
path.  `acc` holds the emitted elements in reverse. -/
def cleanElems (rooted : Bool) (acc : List (List Char)) :
    List (List Char) → List (List Char)
  | [] => acc.reverse
  | e :: rest =>
    if e = [] || e = ['.'] then cleanElems rooted acc rest
    else if e = ['.', '.'] then
      match acc with
      | [] =>
        if rooted then cleanElems rooted [] rest
        else cleanElems rooted [['.', '.']] rest
      | a :: as =>
        if a = ['.', '.'] then cleanElems rooted (['.', '.'] :: a :: as) rest
        else cleanElems rooted as rest
    else cleanElems rooted (e :: acc) rest

/-- Rebuild a path from its elements. -/
def joinElems : List (List Char) → List Char
  | [] => []
  | [e] => e
  | e :: rest => e ++ '/' :: joinElems rest

/-- `filepath.Clean`: the shortest lexically equivalent path. -/
def goClean (p : List Char) : List Char :=
  if p = [] then ['.']
  else
    let rooted := p.head? = some '/'
    let body := joinElems (cleanElems rooted [] (splitOnSlash p))
    if rooted then '/' :: body
    else if body = [] then ['.'] else body

/-- Drop trailing separators, as `filepath.Base` does first. -/
def stripTrailingSlashes (p : List Char) : List Char :=
  (p.reverse.dropWhile (fun c => c == '/')).reverse

/-- The substring after the last separator. -/
def lastElement (p : List Char) : List Char :=
  (p.reverse.takeWhile (fun c => c != '/')).reverse

/-- `filepath.Base`: the last element of the path. -/
def goBase (p : List Char) : List Char :=
  if p = [] then ['.']
  else
    let r := lastElement (stripTrailingSlashes p)
    if r = [] then ['/'] else r

/-- The prefix up to and including the last separator. -/
def dirPart (p : List Char) : List Char :=
  (p.reverse.dropWhile (fun c => c != '/')).reverse

/-- `filepath.Dir`: everything but the last element, cleaned. -/
def goDir (p : List Char) : List Char :=
  goClean (dirPart p)

/-- `filepath.Ext` on the reversed path: the reversed extension is the
prefix of the reversed path up to and including the first dot, provided
no separator comes before it. -/
def extRev : List Char → List Char
  | [] => []
  | c :: rest =>
    if c = '/' then []
    else if c = '.' then [c]
    else
      match extRev rest with
      | [] => []
      | e => c :: e

/-- `filepath.Ext`: the suffix starting at the final dot of the final
element, empty when there is none. -/
def goExt (p : List Char) : List Char :=
  (extRev p.reverse).reverse

/-- `strings.TrimSuffix`. -/
def trimSuffix (s suffix : List Char) : List Char :=
  if suffix.isSuffixOf s then s.take (s.length - suffix.length) else s

/-- `filepath.Join` of two elements: non-first empty elements are kept,
the joined string is cleaned. -/
def goJoin (a b : List Char) : List Char :=
  if a = [] then (if b = [] then [] else goClean b)
  else goClean (a ++ '/' :: b)

/-- `createUniqueFilename`: the original name with `-cleaned` inserted
before the extension. -/
def createUniqueFilename (filename : List Char) : List Char :=
  let dir := goDir filename
  let base := goBase filename
  let ext := goExt filename
  let nameWithoutExt := trimSuffix base ext
  goJoin dir (nameWithoutExt ++ ('-' :: ('c' :: ('l' :: ('e' :: ('a' :: ('n' :: ('e' :: ('d' :: ext)))))))))

/-- Outcome of a requested clean in `main`: either the configuration
error raised before anything is written, carrying the suggested
alternative name, or the content that gets written. -/
inductive CleanRequestResult where
  | rejected (suggested : List Char)
  | written (content : List (List Char))
deriving DecidableEq

/-- The clean branch of `main`: the destination is compared with the
source after `filepath.Clean`; on equality the request is rejected with
the suggested filename before `createCleanFile` runs. -/
def handleCleanRequest (inputFile cleanFile : List Char)
    (rawLines : List (List Char)) : CleanRequestResult :=
  if goClean cleanFile = goClean inputFile then
    .rejected (createUniqueFilename inputFile)
  else .written (cleanLines rawLines)

/-! ## The I/O error surface of `analyzeLocalizationFile` -/

/-- The two failure modes of the analysis. -/
inductive AnalyzeError where
  | fileAccessError
  | readError
deriving DecidableEq

/-- What the operating system delivered for the requested file: the open
call failed, or the scanner delivered some lines followed by either
end-of-file or an I/O error. -/
inductive FileReadOutcome where
  | openFailure
  | readResult (lines : List (List Char)) (ioError : Bool)

/-- The result triple of a successful analysis. -/
structure AnalyzeSuccess where
  duplicateKeys : List Char → Option (List KeyValue)
  uniqueEntries : List Char → Option KeyValue
  rawLines : List (List Char)

/-- `analyzeLocalizationFile` including its error paths: an open failure
returns immediately; otherwise the scan runs over the delivered lines
and, when the scanner reports an error, the accumulated state is
discarded and only the error is returned. -/
def analyzeLocalizationFile : FileReadOutcome → Except AnalyzeError AnalyzeSuccess
  | .openFailure => .error .fileAccessError
  | .readResult lines ioError =>
    let st := scanLines lines
    if ioError then .error .readError
    else .ok ⟨st.duplicateKeys, st.uniqueEntries, st.rawLines⟩

/-! ## Spec-side definitions

These follow the words of the specification, for comparison with the
definitions translated from the source. -/

/-- Spec side: a list free of quote characters. -/
def NoQuote (l : List Char) : Prop := ∀ c ∈ l, c ≠ '"'

/-- Spec side: a run of pattern whitespace. -/
def SpaceRun (l : List Char) : Prop := ∀ c ∈ l, regexIsSpace c = true

/-- Spec side: `cs` begins with the pattern quote, nonempty non-quote
run, quote, whitespace, equals, whitespace, quote, nonempty non-quote
run, quote, whitespace, semicolon, capturing `k` and `v`. -/
def MatchShape (k v cs : List Char) : Prop :=
  ∃ ws1 ws2 ws3 rest,
    k ≠ [] ∧ NoQuote k ∧ v ≠ [] ∧ NoQuote v ∧
    SpaceRun ws1 ∧ SpaceRun ws2 ∧ SpaceRun ws3 ∧
    cs = '"' :: (k ++ '"' :: (ws1 ++ '=' ::
      (ws2 ++ '"' :: (v ++ '"' :: (ws3 ++ ';' :: rest)))))

/-- Spec side: the pattern matches inside `line` at start position `i`. -/
def MatchAt (line : List Char) (i : Nat) (k v : List Char) : Prop :=
  MatchShape k v (line.drop i)

/-- Spec side: `(k, v)` is the first match of the pattern in `line`. -/
def IsFirstMatch (line : List Char) (k v : List Char) : Prop :=
  ∃ i, MatchAt line i k v ∧ ∀ j k' v', MatchAt line j k' v' → i ≤ j

/-- Spec side: the passthrough condition — the trimmed line is empty or
begins with the comment marker. -/
def PassthroughCond (line : List Char) : Prop :=
  trimSpace line = [] ∨ ∃ t, trimSpace line = '/' :: '/' :: t

/-! ## The loose quoted-pair pattern

The pattern with possibly-empty components, `"[^"]*"\s*=\s*"[^"]*"\s*;`,
used to speak about "quoted pairs" whose key or value is empty (which
the real pattern never matches). -/

/-- Consume a possibly-empty maximal run of non-quote characters. -/
def looseReadRun (cs : List Char) : List Char × List Char :=
  (cs.takeWhile (fun c => c != '"'), cs.dropWhile (fun c => c != '"'))

/-- The loose quoted-pair pattern anchored at the head of `cs`. -/
def looseMatchFrom (cs : List Char) : Option (List Char × List Char) :=
  (expectChar '"' cs).bind fun r0 =>
  let kr := looseReadRun r0
  (expectChar '"' kr.2).bind fun r2 =>
  (expectChar '=' (r2.dropWhile regexIsSpace)).bind fun r4 =>
  (expectChar '"' (r4.dropWhile regexIsSpace)).bind fun r6 =>
  let vr := looseReadRun r6
  (expectChar '"' vr.2).bind fun r8 =>
  (expectChar ';' (r8.dropWhile regexIsSpace)).map fun _ => (kr.1, vr.1)

/-- The leftmost loose quoted pair of a line. -/
def looseFirstMatch : List Char → Option (List Char × List Char)
  | [] => none
  | c :: rest =>
    match looseMatchFrom (c :: rest) with
    | some kv => some kv
    | none => looseFirstMatch rest

/-! ## Derived views of the cleaning pass -/

/-- Whether a line classifies as an Entry. -/
def isEntryLine (l : List Char) : Bool :=
  match classifyLine l with
  | .entry _ _ => true
  | _ => false

/-- The keys of the Entry lines of a line list, in order. -/
def entryKeys (ls : List (List Char)) : List (List Char) :=
  ls.filterMap fun l =>
    match classifyLine l with
    | .entry k _ => some k
    | _ => none

/-- First-occurrence deduplication relative to an already-seen set. -/
def dedupFrom (seen : List (List Char)) : List (List Char) → List (List Char)
  | [] => []
  | k :: rest =>
    if k ∈ seen then dedupFrom seen rest
    else k :: dedupFrom (k :: seen) rest

/-- Whether a line survives cleaning, given the raw lines before it: an
Entry line survives exactly when its key is not the key of any earlier
Entry line, every other line survives. -/
def keepLine (prev : List (List Char)) (l : List Char) : Bool :=
  match classifyLine l with
  | .entry k _ => !(decide (k ∈ entryKeys prev))
  | _ => true

/-- The positional formulation of cleaning: keep each line precisely
when `keepLine` holds of it and the original lines before it. -/
def prefixFilter (prev : List (List Char)) : List (List Char) → List (List Char)
  | [] => []
  | l :: rest =>
    if keepLine prev l then l :: prefixFilter (prev ++ [l]) rest
    else prefixFilter (prev ++ [l]) rest

/-- Example line: nonempty key, empty value. -/
def exEmptyValueLine : List Char := ("\"k\" = \"\";").data

/-- Example line: empty key, nonempty value. -/
def exEmptyKeyLine : List Char := ("\"\" = \"v\";").data

/-- Example line whose first quoted pair has empty key and empty value
but which contains a later fully-formed pair. -/
def exMixedPairLine : List Char := ("\"\" = \"\"; \"a\" = \"b\";").data

/-! # Theorems -/

/-- `matchFrom` of the empty list fails. -/
theorem matchFrom_nil : matchFrom [] = none := rfl

/-- `takeWhile` over a satisfying run closed by a failing element. -/
theorem takeWhile_append_run {p : Char → Bool} {k : List Char}
    (hk : ∀ c ∈ k, p c = true) {b : Char} (hb : p b = false) (t : List Char) :
    (k ++ b :: t).takeWhile p = k := by
  induction k with
  | nil =>
    simp only [List.nil_append]
    exact List.takeWhile_cons_of_neg (by simp [hb])
  | cons a as ih =>
    have ha : p a = true := hk a (List.mem_cons_self a as)
    rw [List.cons_append, List.takeWhile_cons_of_pos ha,
      ih (fun c hc => hk c (List.mem_cons_of_mem a hc))]

/-- `dropWhile` over a satisfying run closed by a failing element. -/
theorem dropWhile_append_run {p : Char → Bool} {k : List Char}
    (hk : ∀ c ∈ k, p c = true) {b : Char} (hb : p b = false) (t : List Char) :
    (k ++ b :: t).dropWhile p = b :: t := by
  induction k with
  | nil =>
    simp only [List.nil_append]
    exact List.dropWhile_cons_of_neg (by simp [hb])
  | cons a as ih =>
    have ha : p a = true := hk a (List.mem_cons_self a as)
    rw [List.cons_append, List.dropWhile_cons_of_pos ha,
      ih (fun c hc => hk c (List.mem_cons_of_mem a hc))]

/-- Characterization of `expectChar`. -/
theorem expectChar_eq_some {c : Char} {cs r : List Char} :
    expectChar c cs = some r ↔ cs = c :: r := by
  cases cs with
  | nil => simp [expectChar]
  | cons x rest =>
    by_cases hx : x = c
    · subst hx; simp [expectChar]
    · simp [expectChar, hx]

/-- Soundness of `readRun`. -/
theorem readRun_sound {cs k r : List Char} (h : readRun cs = some (k, r)) :
    k ≠ [] ∧ NoQuote k ∧ cs = k ++ r := by
  unfold readRun at h
  by_cases he : (cs.takeWhile (fun c => c != '"')).isEmpty
  · simp [he] at h
  · simp only [he, if_neg, Bool.false_eq_true, not_false_eq_true, if_false,
      Option.some.injEq, Prod.mk.injEq] at h
    obtain ⟨hk, hr⟩ := h
    subst hk; subst hr
    refine ⟨fun h0 => he (by simp [h0]), ?_, (List.takeWhile_append_dropWhile _ _).symm⟩
    intro c hc
    have := List.mem_takeWhile_imp hc
    simpa using this

/-- Completeness of `readRun` on a shaped input. -/
theorem readRun_complete {k t : List Char} (hk : k ≠ []) (hq : NoQuote k) :
    readRun (k ++ '"' :: t) = some (k, '"' :: t) := by
  have hrun : ∀ c ∈ k, (c != '"') = true := by
    intro c hc; simpa using hq c hc
  have hquote : (('"' : Char) != '"') = false := by decide
  unfold readRun
  rw [takeWhile_append_run hrun hquote, dropWhile_append_run hrun hquote]
  simp [List.isEmpty_iff, hk]

/-- Soundness of the anchored matcher against the declarative pattern. -/
theorem matchFrom_sound {cs k v : List Char} (h : matchFrom cs = some (k, v)) :
    MatchShape k v cs := by
  unfold matchFrom at h
  simp only [Option.bind_eq_some, Option.map_eq_some'] at h
  obtain ⟨r0, h0, kr, hkr, r2, h2, r4, h4, r6, h6, vr, hvr, r8, h8, r9, h9, hkv⟩ := h
  simp only [Prod.mk.injEq] at hkv
  obtain ⟨hk, hv⟩ := hkv
  subst hk; subst hv
  rw [expectChar_eq_some] at h0 h2 h4 h6 h8 h9
  have hkr' : readRun r0 = some (kr.1, kr.2) := by rw [Prod.mk.eta]; exact hkr
  obtain ⟨hkne, hkq, hr0⟩ := readRun_sound hkr'
  have hvr' : readRun r6 = some (vr.1, vr.2) := by rw [Prod.mk.eta]; exact hvr
  obtain ⟨hvne, hvq, hr6⟩ := readRun_sound hvr'
  set ws1 := r2.takeWhile regexIsSpace with hws1def
  set ws2 := r4.takeWhile regexIsSpace with hws2def
  set ws3 := r8.takeWhile regexIsSpace with hws3def
  have e2 : r2 = ws1 ++ '=' :: r4 := by
    conv_lhs => rw [← List.takeWhile_append_dropWhile regexIsSpace r2]
    rw [h4]
  have e4 : r4 = ws2 ++ '"' :: r6 := by
    conv_lhs => rw [← List.takeWhile_append_dropWhile regexIsSpace r4]
    rw [h6]
  have e8 : r8 = ws3 ++ ';' :: r9 := by
    conv_lhs => rw [← List.takeWhile_append_dropWhile regexIsSpace r8]
    rw [h9]
  refine ⟨ws1, ws2, ws3, r9, hkne, hkq, hvne, hvq, ?_, ?_, ?_, ?_⟩
  · intro c hc; exact List.mem_takeWhile_imp hc
  · intro c hc; exact List.mem_takeWhile_imp hc
  · intro c hc; exact List.mem_takeWhile_imp hc
  · subst h0
    rw [hr0, h2, e2, e4, hr6, h8, e8]

/-- Completeness of the anchored matcher against the declarative
pattern. -/
theorem matchFrom_complete {cs k v : List Char} (h : MatchShape k v cs) :
    matchFrom cs = some (k, v) := by
  obtain ⟨ws1, ws2, ws3, rest, hkne, hkq, hvne, hvq, hws1, hws2, hws3, rfl⟩ := h
  have hsemi : regexIsSpace ';' = false := by decide
  have heqs : regexIsSpace '=' = false := by decide
  have hquo : regexIsSpace '"' = false := by decide
  have hws1' : ∀ c ∈ ws1, regexIsSpace c = true := hws1
  have hws2' : ∀ c ∈ ws2, regexIsSpace c = true := hws2
  have hws3' : ∀ c ∈ ws3, regexIsSpace c = true := hws3
  have d1 : (ws1 ++ '=' :: (ws2 ++ '"' :: (v ++ '"' :: (ws3 ++ ';' :: rest)))).dropWhile
      regexIsSpace = '=' :: (ws2 ++ '"' :: (v ++ '"' :: (ws3 ++ ';' :: rest))) :=
    dropWhile_append_run hws1' heqs _
  have d2 : (ws2 ++ '"' :: (v ++ '"' :: (ws3 ++ ';' :: rest))).dropWhile regexIsSpace
      = '"' :: (v ++ '"' :: (ws3 ++ ';' :: rest)) :=
    dropWhile_append_run hws2' hquo _
  have d3 : (ws3 ++ ';' :: rest).dropWhile regexIsSpace = ';' :: rest :=
    dropWhile_append_run hws3' hsemi _
  have rk : readRun (k ++ '"' :: (ws1 ++ '=' :: (ws2 ++ '"' :: (v ++ '"' ::
      (ws3 ++ ';' :: rest))))) = some (k, '"' :: (ws1 ++ '=' :: (ws2 ++ '"' ::
      (v ++ '"' :: (ws3 ++ ';' :: rest))))) :=
    readRun_complete hkne hkq
  have rv : readRun (v ++ '"' :: (ws3 ++ ';' :: rest))
      = some (v, '"' :: (ws3 ++ ';' :: rest)) :=
    readRun_complete hvne hvq
  unfold matchFrom
  simp [expectChar, rk, rv, d1, d2, d3]

/-- The matcher result at one start position, declaratively. -/
theorem matchFrom_eq_some_iff {cs k v : List Char} :
    matchFrom cs = some (k, v) ↔ MatchShape k v cs :=
  ⟨matchFrom_sound, matchFrom_complete⟩

/-- `findFirstMatch` succeeds exactly at the least start position where
the anchored matcher succeeds. -/
theorem findFirstMatch_eq_some_iff {cs : List Char} {kv : List Char × List Char} :
    findFirstMatch cs = some kv ↔
      ∃ i, matchFrom (cs.drop i) = some kv ∧
        ∀ j, j < i → matchFrom (cs.drop j) = none := by
  induction cs with
  | nil =>
    constructor
    · intro h; simp [findFirstMatch] at h
    · rintro ⟨i, hi, -⟩
      rw [List.drop_nil, matchFrom_nil] at hi
      exact absurd hi (by simp)
  | cons c rest ih =>
    cases hm : matchFrom (c :: rest) with
    | some kv0 =>
      simp only [findFirstMatch, hm]
      constructor
      · intro h
        refine ⟨0, ?_, fun j hj => absurd hj (Nat.not_lt_zero j)⟩
        rw [List.drop_zero, hm, h]
      · rintro ⟨i, hi, hmin⟩
        cases i with
        | zero =>
          rw [List.drop_zero, hm] at hi
          exact hi
        | succ i' =>
          have h0 := hmin 0 (Nat.succ_pos i')
          rw [List.drop_zero, hm] at h0
          exact absurd h0 (by simp)
    | none =>
      simp only [findFirstMatch, hm]
      rw [ih]
      constructor
      · rintro ⟨i, hi, hmin⟩
        refine ⟨i + 1, by simpa using hi, ?_⟩
        intro j hj
        cases j with
        | zero => rw [List.drop_zero]; exact hm
        | succ j' =>
          rw [List.drop_succ_cons]
          exact hmin j' (Nat.lt_of_succ_lt_succ hj)
      · rintro ⟨i, hi, hmin⟩
        cases i with
        | zero =>
          rw [List.drop_zero, hm] at hi
          exact absurd hi (by simp)
        | succ i' =>
          refine ⟨i', by simpa using hi, ?_⟩
          intro j hj
          have h0 := hmin (j + 1) (Nat.succ_lt_succ hj)
          rw [List.drop_succ_cons] at h0
          exact h0

/-- `findFirstMatch` fails exactly when no start position matches. -/
theorem findFirstMatch_eq_none_iff {cs : List Char} :
    findFirstMatch cs = none ↔ ∀ i, matchFrom (cs.drop i) = none := by
  induction cs with
  | nil =>
    simp [findFirstMatch, matchFrom_nil]
  | cons c rest ih =>
    cases hm : matchFrom (c :: rest) with
    | some kv0 =>
      simp only [findFirstMatch, hm]
      constructor
      · intro h; exact absurd h (by simp)
      · intro h
        have h0 := h 0
        rw [List.drop_zero, hm] at h0
        exact absurd h0 (by simp)
    | none =>
      simp only [findFirstMatch, hm]
      rw [ih]
      constructor
      · intro h i
        cases i with
        | zero => rw [List.drop_zero]; exact hm
        | succ i' => rw [List.drop_succ_cons]; exact h i'
      · intro h i
        have h0 := h (i + 1)
        rw [List.drop_succ_cons] at h0
        exact h0

/-- `findFirstMatch` computes the spec's first match. -/
theorem findFirstMatch_some_iff_isFirst {line k v : List Char} :
    findFirstMatch line = some (k, v) ↔ IsFirstMatch line k v := by
  constructor
  · intro h
    obtain ⟨i, hi, hmin⟩ := findFirstMatch_eq_some_iff.mp h
    refine ⟨i, matchFrom_sound hi, ?_⟩
    intro j k' v' hj
    by_contra hlt
    push_neg at hlt
    have h0 := hmin j hlt
    rw [matchFrom_complete hj] at h0
    exact absurd h0 (by simp)
  · rintro ⟨i, hi, hmin⟩
    have hne : findFirstMatch line ≠ none := by
      intro h0
      have h1 := findFirstMatch_eq_none_iff.mp h0 i
      rw [matchFrom_complete hi] at h1
      exact absurd h1 (by simp)
    obtain ⟨kv0, h0⟩ := Option.ne_none_iff_exists'.mp hne
    obtain ⟨i0, hi0, hmin0⟩ := findFirstMatch_eq_some_iff.mp h0
    have hshape0 : MatchShape kv0.1 kv0.2 (line.drop i0) := by
      apply matchFrom_sound
      rw [Prod.mk.eta]
      exact hi0
    have hle : i ≤ i0 := hmin i0 kv0.1 kv0.2 hshape0
    have hge : i0 ≤ i := by
      by_contra h2
      push_neg at h2
      have h3 := hmin0 i h2
      rw [matchFrom_complete hi] at h3
      exact absurd h3 (by simp)
    have hii : i0 = i := Nat.le_antisymm hge hle
    subst hii
    have h4 : matchFrom (line.drop i0) = some (k, v) := matchFrom_complete hi
    have h6 : kv0 = (k, v) := by
      have h5 : some kv0 = some (k, v) := by rw [← hi0, h4]
      exact Option.some.inj h5
    rw [h0, h6]

/-- The skip condition is exactly the spec's Passthrough condition. -/
theorem isSkippedLine_iff {line : List Char} :
    isSkippedLine line = true ↔ PassthroughCond line := by
  unfold isSkippedLine PassthroughCond
  rw [Bool.or_eq_true, List.isEmpty_iff]
  apply or_congr Iff.rfl
  cases ht : trimSpace line with
  | nil => simp [startsWithSlashSlash]
  | cons c1 t1 =>
    cases t1 with
    | nil => simp [startsWithSlashSlash]
    | cons c2 t2 =>
      simp only [startsWithSlashSlash, Bool.and_eq_true, beq_iff_eq,
        List.cons.injEq]
      constructor
      · rintro ⟨rfl, rfl⟩; exact ⟨t2, rfl, rfl, rfl⟩
      · rintro ⟨t, rfl, rfl, -⟩; exact ⟨rfl, rfl⟩

/-- C2: the classifier produces exactly one of three results for every
line: Passthrough exactly when the trimmed line is empty or starts with
`//`; Entry `(k, v)` exactly when the line is not passthrough and
`(k, v)` is the first match of the pattern quote, non-quote run, quote,
optional whitespace, equals, optional whitespace, quote, non-quote run,
quote, optional whitespace, semicolon; Unrecognized exactly when the
line is not passthrough and no position matches the pattern; and
non-Entry lines are never counted as a key occurrence. -/
theorem classifier_trichotomy (line : List Char) :
    (classifyLine line = .passthrough ↔ PassthroughCond line)
    ∧ (∀ k v, classifyLine line = .entry k v ↔
        (¬ PassthroughCond line ∧ IsFirstMatch line k v))
    ∧ (classifyLine line = .unrecognized ↔
        (¬ PassthroughCond line ∧ ∀ i k v, ¬ MatchAt line i k v))
    ∧ (∀ n, classifyLine line = .passthrough ∨ classifyLine line = .unrecognized →
        lineEntry n line = none) := by
  by_cases hsk : isSkippedLine line
  · have hpc : PassthroughCond line := isSkippedLine_iff.mp hsk
    refine ⟨by simp [classifyLine, hsk, hpc], ?_, ?_, ?_⟩
    · intro k v
      simp [classifyLine, hsk, hpc]
    · simp [classifyLine, hsk, hpc]
    · intro n _
      simp [lineEntry, classifyLine, hsk]
  · have hpc : ¬ PassthroughCond line := fun hp => hsk (isSkippedLine_iff.mpr hp)
    have hskf : isSkippedLine line = false := by
      cases hb : isSkippedLine line
      · rfl
      · exact absurd hb hsk
    cases hf : findFirstMatch line with
    | some kv0 =>
      obtain ⟨k0, v0⟩ := kv0
      have hcl : classifyLine line = .entry k0 v0 := by
        simp [classifyLine, hskf, hf]
      have hex : ∃ i, MatchAt line i k0 v0 := by
        obtain ⟨i, hi, -⟩ := findFirstMatch_eq_some_iff.mp hf
        exact ⟨i, matchFrom_sound hi⟩
      refine ⟨?_, ?_, ?_, ?_⟩
      · rw [hcl]; simp [hpc]
      · intro k v
        rw [hcl]
        constructor
        · intro he
          rw [LineClass.entry.injEq] at he
          obtain ⟨rfl, rfl⟩ := he
          exact ⟨hpc, findFirstMatch_some_iff_isFirst.mp hf⟩
        · rintro ⟨-, hfm⟩
          have h1 := findFirstMatch_some_iff_isFirst.mpr hfm
          rw [hf] at h1
          rw [LineClass.entry.injEq]
          have h2 := Option.some.inj h1
          rw [Prod.mk.injEq] at h2
          exact ⟨h2.1, h2.2⟩
      · rw [hcl]
        simp only [reduceCtorEq, false_iff]
        rintro ⟨-, hall⟩
        obtain ⟨i, hi⟩ := hex
        exact hall i k0 v0 hi
      · intro n hor
        rw [hcl] at hor
        rcases hor with h | h <;> exact absurd h (by simp)
    | none =>
      have hcl : classifyLine line = .unrecognized := by
        simp [classifyLine, hskf, hf]
      have hnone : ∀ i k v, ¬ MatchAt line i k v := by
        intro i k v hi
        have h1 := findFirstMatch_eq_none_iff.mp hf i
        rw [matchFrom_complete hi] at h1
        exact absurd h1 (by simp)
      refine ⟨?_, ?_, ?_, ?_⟩
      · rw [hcl]; simp [hpc]
      · intro k v
        rw [hcl]
        simp only [reduceCtorEq, false_iff]
        rintro ⟨-, i, hi, -⟩
        exact hnone i k v hi
      · rw [hcl]
        simp only [true_iff]
        exact ⟨hpc, hnone⟩
      · intro n _
        simp [lineEntry, hcl]

/-- Witness for C2 at a concrete Entry line. -/
theorem classifier_trichotomy_witness :
    ¬ PassthroughCond (("\"A\" = \"1\";").data) ∧
      IsFirstMatch (("\"A\" = \"1\";").data) (("A").data) (("1").data) :=
  ((classifier_trichotomy (("\"A\" = \"1\";").data)).2.1 (("A").data)
    (("1").data)).mp (by decide)

/-- A line entry carries the line number it was built with. -/
theorem lineEntry_lineNum {n : Nat} {l : List Char} {e : KeyValue}
    (h : lineEntry n l = some e) : e.lineNum = n := by
  unfold lineEntry at h
  cases hc : classifyLine l with
  | entry k v =>
    rw [hc] at h
    cases Option.some.inj h
    rfl
  | passthrough => rw [hc] at h; exact absurd h (by simp)
  | unrecognized => rw [hc] at h; exact absurd h (by simp)

/-- An Entry classification yields the corresponding line entry. -/
theorem lineEntry_of_entry {n : Nat} {l k v : List Char}
    (h : classifyLine l = .entry k v) : lineEntry n l = some ⟨k, v, n⟩ := by
  unfold lineEntry
  rw [h]

/-- A non-Entry classification yields no line entry. -/
theorem lineEntry_of_not_entry {n : Nat} {l : List Char}
    (h : classifyLine l = .passthrough ∨ classifyLine l = .unrecognized) :
    lineEntry n l = none := by
  unfold lineEntry
  rcases h with h | h <;> rw [h]

/-- Occurrence sequences step over a non-Entry line. -/
theorem keyOccurrencesFrom_cons_not_entry {n : Nat} {l : List Char}
    {rest : List (List Char)} {k : List Char} (h : lineEntry n l = none) :
    keyOccurrencesFrom n (l :: rest) k = keyOccurrencesFrom (n + 1) rest k := by
  unfold keyOccurrencesFrom
  rw [entriesFrom, h]

/-- Occurrence sequences step over an Entry line of the same key. -/
theorem keyOccurrencesFrom_cons_entry_same {n : Nat} {l k v : List Char}
    {rest : List (List Char)} (h : classifyLine l = .entry k v) :
    keyOccurrencesFrom n (l :: rest) k =
      ⟨k, v, n⟩ :: keyOccurrencesFrom (n + 1) rest k := by
  unfold keyOccurrencesFrom
  rw [entriesFrom, lineEntry_of_entry h]
  rw [List.filter_cons_of_pos (by simp)]

/-- Occurrence sequences step over an Entry line of another key. -/
theorem keyOccurrencesFrom_cons_entry_other {n : Nat} {l k0 v k : List Char}
    {rest : List (List Char)} (h : classifyLine l = .entry k0 v) (hk : k0 ≠ k) :
    keyOccurrencesFrom n (l :: rest) k = keyOccurrencesFrom (n + 1) rest k := by
  unfold keyOccurrencesFrom
  rw [entriesFrom, lineEntry_of_entry h]
  rw [List.filter_cons_of_neg (by simp [hk])]

/-- Every entry of `entriesFrom n` carries a line number at least `n`. -/
theorem entriesFrom_lineNum_ge {ls : List (List Char)} :
    ∀ {n : Nat}, ∀ e ∈ entriesFrom n ls, n ≤ e.lineNum := by
  induction ls with
  | nil => intro n e he; simp [entriesFrom] at he
  | cons l rest ih =>
    intro n e he
    rw [entriesFrom] at he
    cases hl : lineEntry n l with
    | some e0 =>
      rw [hl] at he
      rcases List.mem_cons.mp he with rfl | hmem
      · exact Nat.le_of_eq (lineEntry_lineNum hl).symm
      · exact Nat.le_of_succ_le (ih e hmem)
    | none =>
      rw [hl] at he
      exact Nat.le_of_succ_le (ih e he)

/-- The entry list of a scan is strictly increasing in line numbers. -/
theorem entriesFrom_pairwise {ls : List (List Char)} :
    ∀ {n : Nat},
      List.Pairwise (fun a b => a.lineNum < b.lineNum) (entriesFrom n ls) := by
  induction ls with
  | nil => intro n; simp [entriesFrom]
  | cons l rest ih =>
    intro n
    rw [entriesFrom]
    cases hl : lineEntry n l with
    | none => exact ih
    | some e0 =>
      refine List.Pairwise.cons ?_ ih
      intro b hb
      have h1 := entriesFrom_lineNum_ge b hb
      have h2 : e0.lineNum = n := lineEntry_lineNum hl
      omega

/-- Occurrence sequences are strictly increasing in line numbers. -/
theorem keyOccurrencesFrom_pairwise {n : Nat} {ls : List (List Char)}
    {k : List Char} :
    List.Pairwise (fun a b => a.lineNum < b.lineNum) (keyOccurrencesFrom n ls k) :=
  List.Pairwise.sublist (List.filter_sublist _) entriesFrom_pairwise

/-- The raw-line field of one scan step. -/
theorem scanStep_rawLines (st : ScanState) (n : Nat) (l : List Char) :
    (scanStep st n l).rawLines = st.rawLines ++ [l] := by
  unfold scanStep
  cases hc : classifyLine l <;> rfl

/-- A non-Entry line leaves all three maps unchanged. -/
theorem scanStep_maps_not_entry {st : ScanState} {n : Nat} {l : List Char}
    (hc : classifyLine l = .passthrough ∨ classifyLine l = .unrecognized) :
    (scanStep st n l).keyEntries = st.keyEntries
    ∧ (scanStep st n l).uniqueEntries = st.uniqueEntries
    ∧ (scanStep st n l).duplicateKeys = st.duplicateKeys := by
  rcases hc with h | h <;> (unfold scanStep; rw [h]; exact ⟨rfl, rfl, rfl⟩)

/-- The occurrence-index field of one scan step over an Entry line. -/
theorem scanStep_keyEntries_entry {st : ScanState} {n : Nat} {l k0 v : List Char}
    (hc : classifyLine l = .entry k0 v) (k : List Char) :
    (scanStep st n l).keyEntries k =
      if k = k0 then some ((st.keyEntries k0).getD [] ++ [(⟨k0, v, n⟩ : KeyValue)])
      else st.keyEntries k := by
  unfold scanStep
  rw [hc]
  simp only [update]

/-- The first-occurrence field of one scan step over an Entry line. -/
theorem scanStep_uniqueEntries_entry {st : ScanState} {n : Nat} {l k0 v : List Char}
    (hc : classifyLine l = .entry k0 v) (k : List Char) :
    (scanStep st n l).uniqueEntries k =
      if k = k0 then
        (match st.uniqueEntries k0 with
          | none => some (⟨k0, v, n⟩ : KeyValue)
          | some e => some e)
      else st.uniqueEntries k := by
  cases hu : st.uniqueEntries k0 with
  | none =>
    unfold scanStep
    rw [hc]
    dsimp only
    rw [hu]
    dsimp only
    simp only [update]
  | some e =>
    unfold scanStep
    rw [hc]
    dsimp only
    rw [hu]
    dsimp only
    by_cases hkk : k = k0
    · rw [if_pos hkk, hkk]
      exact hu
    · rw [if_neg hkk]

/-- The duplicate-map field of one scan step over an Entry line. -/
theorem scanStep_duplicateKeys_entry {st : ScanState} {n : Nat} {l k0 v : List Char}
    (hc : classifyLine l = .entry k0 v) (k : List Char) :
    (scanStep st n l).duplicateKeys k =
      if k = k0 ∧ 1 < ((st.keyEntries k0).getD [] ++ [(⟨k0, v, n⟩ : KeyValue)]).length
      then some ((st.keyEntries k0).getD [] ++ [(⟨k0, v, n⟩ : KeyValue)])
      else st.duplicateKeys k := by
  unfold scanStep
  rw [hc]
  simp only []
  by_cases hlen : 1 < ((st.keyEntries k0).getD [] ++ [(⟨k0, v, n⟩ : KeyValue)]).length
  · rw [if_pos hlen]
    simp only [update]
    by_cases hkk : k = k0
    · rw [if_pos hkk, if_pos ⟨hkk, hlen⟩]
    · rw [if_neg hkk, if_neg (fun h => hkk h.1)]
  · rw [if_neg hlen, if_neg (fun h => hlen h.2)]

/-- The occurrence index accumulated by the scan loop, relative to a
state that already holds the occurrence list `pocc` for the key. -/
theorem scanFrom_keyEntries_inv (ls : List (List Char)) :
    ∀ (st : ScanState) (n : Nat) (k : List Char) (pocc : List KeyValue),
      st.keyEntries k = (if pocc = [] then none else some pocc) →
      (scanFrom st n ls).keyEntries k =
        (if pocc ++ keyOccurrencesFrom n ls k = [] then none
         else some (pocc ++ keyOccurrencesFrom n ls k)) := by
  induction ls with
  | nil =>
    intro st n k pocc hke
    rw [scanFrom]
    unfold keyOccurrencesFrom
    rw [entriesFrom]
    simpa using hke
  | cons l rest ih =>
    intro st n k pocc hke
    rw [scanFrom]
    cases hc : classifyLine l with
    | passthrough =>
      rw [keyOccurrencesFrom_cons_not_entry (lineEntry_of_not_entry (Or.inl hc))]
      exact ih _ _ _ _ (by rw [(scanStep_maps_not_entry (Or.inl hc)).1]; exact hke)
    | unrecognized =>
      rw [keyOccurrencesFrom_cons_not_entry (lineEntry_of_not_entry (Or.inr hc))]
      exact ih _ _ _ _ (by rw [(scanStep_maps_not_entry (Or.inr hc)).1]; exact hke)
    | entry k0 v =>
      by_cases hk : k = k0
      · subst hk
        rw [keyOccurrencesFrom_cons_entry_same hc]
        have hgetD : (st.keyEntries k).getD [] = pocc := by
          rw [hke]
          by_cases hp : pocc = []
          · rw [if_pos hp, hp]; rfl
          · rw [if_neg hp]; rfl
        have hke' : (scanStep st n l).keyEntries k =
            (if pocc ++ [(⟨k, v, n⟩ : KeyValue)] = [] then none
             else some (pocc ++ [(⟨k, v, n⟩ : KeyValue)])) := by
          rw [scanStep_keyEntries_entry hc k, if_pos rfl, hgetD,
            if_neg (by simp)]
        have := ih _ (n + 1) k (pocc ++ [(⟨k, v, n⟩ : KeyValue)]) hke'
        rw [this, List.append_assoc]
        rfl
      · rw [keyOccurrencesFrom_cons_entry_other hc (fun h => hk h.symm)]
        refine ih _ _ _ _ ?_
        rw [scanStep_keyEntries_entry hc k, if_neg hk]
        exact hke

/-- The first-occurrence map accumulated by the scan loop, relative to a
state that already holds the occurrence list `pocc` for the key. -/
theorem scanFrom_uniqueEntries_inv (ls : List (List Char)) :
    ∀ (st : ScanState) (n : Nat) (k : List Char) (pocc : List KeyValue),
      st.keyEntries k = (if pocc = [] then none else some pocc) →
      st.uniqueEntries k = pocc.head? →
      (scanFrom st n ls).uniqueEntries k =
        (pocc ++ keyOccurrencesFrom n ls k).head? := by
  induction ls with
  | nil =>
    intro st n k pocc hke hu
    rw [scanFrom]
    unfold keyOccurrencesFrom
    rw [entriesFrom]
    simpa using hu
  | cons l rest ih =>
    intro st n k pocc hke hu
    rw [scanFrom]
    cases hc : classifyLine l with
    | passthrough =>
      rw [keyOccurrencesFrom_cons_not_entry (lineEntry_of_not_entry (Or.inl hc))]
      exact ih _ _ _ _
        (by rw [(scanStep_maps_not_entry (Or.inl hc)).1]; exact hke)
        (by rw [(scanStep_maps_not_entry (Or.inl hc)).2.1]; exact hu)
    | unrecognized =>
      rw [keyOccurrencesFrom_cons_not_entry (lineEntry_of_not_entry (Or.inr hc))]
      exact ih _ _ _ _
        (by rw [(scanStep_maps_not_entry (Or.inr hc)).1]; exact hke)
        (by rw [(scanStep_maps_not_entry (Or.inr hc)).2.1]; exact hu)
    | entry k0 v =>
      by_cases hk : k = k0
      · subst hk
        rw [keyOccurrencesFrom_cons_entry_same hc]
        have hgetD : (st.keyEntries k).getD [] = pocc := by
          rw [hke]
          by_cases hp : pocc = []
          · rw [if_pos hp, hp]; rfl
          · rw [if_neg hp]; rfl
        have hke' : (scanStep st n l).keyEntries k =
            (if pocc ++ [(⟨k, v, n⟩ : KeyValue)] = [] then none
             else some (pocc ++ [(⟨k, v, n⟩ : KeyValue)])) := by
          rw [scanStep_keyEntries_entry hc k, if_pos rfl, hgetD,
            if_neg (by simp)]
        have hu' : (scanStep st n l).uniqueEntries k =
            (pocc ++ [(⟨k, v, n⟩ : KeyValue)]).head? := by
          rw [scanStep_uniqueEntries_entry hc k, if_pos rfl]
          cases hp : pocc with
          | nil =>
            rw [hp] at hu
            rw [hu]
            simp
          | cons p ps =>
            rw [hp] at hu
            rw [hu]
            simp
        have := ih _ (n + 1) k (pocc ++ [(⟨k, v, n⟩ : KeyValue)]) hke' hu'
        rw [this, List.append_assoc]
        rfl
      · rw [keyOccurrencesFrom_cons_entry_other hc (fun h => hk h.symm)]
        refine ih _ _ _ _ ?_ ?_
        · rw [scanStep_keyEntries_entry hc k, if_neg hk]
          exact hke
        · rw [scanStep_uniqueEntries_entry hc k, if_neg hk]
          exact hu

/-- The duplicate map accumulated by the scan loop, relative to a state
that already holds the occurrence list `pocc` for the key. -/
theorem scanFrom_duplicateKeys_inv (ls : List (List Char)) :
    ∀ (st : ScanState) (n : Nat) (k : List Char) (pocc : List KeyValue),
      st.keyEntries k = (if pocc = [] then none else some pocc) →
      st.duplicateKeys k =
        (if 2 ≤ pocc.length then some pocc else none) →
      (scanFrom st n ls).duplicateKeys k =
        (if 2 ≤ (pocc ++ keyOccurrencesFrom n ls k).length
         then some (pocc ++ keyOccurrencesFrom n ls k) else none) := by
  induction ls with
  | nil =>
    intro st n k pocc hke hd
    rw [scanFrom]
    unfold keyOccurrencesFrom
    rw [entriesFrom]
    simpa using hd
  | cons l rest ih =>
    intro st n k pocc hke hd
    rw [scanFrom]
    cases hc : classifyLine l with
    | passthrough =>
      rw [keyOccurrencesFrom_cons_not_entry (lineEntry_of_not_entry (Or.inl hc))]
      exact ih _ _ _ _
        (by rw [(scanStep_maps_not_entry (Or.inl hc)).1]; exact hke)
        (by rw [(scanStep_maps_not_entry (Or.inl hc)).2.2]; exact hd)
    | unrecognized =>
      rw [keyOccurrencesFrom_cons_not_entry (lineEntry_of_not_entry (Or.inr hc))]
      exact ih _ _ _ _
        (by rw [(scanStep_maps_not_entry (Or.inr hc)).1]; exact hke)
        (by rw [(scanStep_maps_not_entry (Or.inr hc)).2.2]; exact hd)
    | entry k0 v =>
      by_cases hk : k = k0
      · subst hk
        rw [keyOccurrencesFrom_cons_entry_same hc]
        have hgetD : (st.keyEntries k).getD [] = pocc := by
          rw [hke]
          by_cases hp : pocc = []
          · rw [if_pos hp, hp]; rfl
          · rw [if_neg hp]; rfl
        have hke' : (scanStep st n l).keyEntries k =
            (if pocc ++ [(⟨k, v, n⟩ : KeyValue)] = [] then none
             else some (pocc ++ [(⟨k, v, n⟩ : KeyValue)])) := by
          rw [scanStep_keyEntries_entry hc k, if_pos rfl, hgetD,
            if_neg (by simp)]
        have hd' : (scanStep st n l).duplicateKeys k =
            (if 2 ≤ (pocc ++ [(⟨k, v, n⟩ : KeyValue)]).length
             then some (pocc ++ [(⟨k, v, n⟩ : KeyValue)]) else none) := by
          rw [scanStep_duplicateKeys_entry hc k, hgetD]
          by_cases hlen : 2 ≤ (pocc ++ [(⟨k, v, n⟩ : KeyValue)]).length
          · have h1 : 1 < (pocc ++ [(⟨k, v, n⟩ : KeyValue)]).length := hlen
            rw [if_pos ⟨rfl, h1⟩, if_pos hlen]
          · have h1 : ¬ (k = k ∧
                1 < (pocc ++ [(⟨k, v, n⟩ : KeyValue)]).length) :=
              fun h => hlen h.2
            rw [if_neg h1, if_neg hlen, hd]
            have hp : pocc.length < 2 := by
              have := hlen
              rw [List.length_append, List.length_cons, List.length_nil] at this
              omega
            rw [if_neg (by omega)]
        have := ih _ (n + 1) k (pocc ++ [(⟨k, v, n⟩ : KeyValue)]) hke' hd'
        rw [this, List.append_assoc]
        rfl
      · rw [keyOccurrencesFrom_cons_entry_other hc (fun h => hk h.symm)]
        refine ih _ _ _ _ ?_ ?_
        · rw [scanStep_keyEntries_entry hc k, if_neg hk]
          exact hke
        · rw [scanStep_duplicateKeys_entry hc k, if_neg (fun h => hk h.1)]
          exact hd

/-- The raw line sequence accumulated by the scan loop. -/
theorem scanFrom_rawLines (ls : List (List Char)) :
    ∀ (st : ScanState) (n : Nat),
      (scanFrom st n ls).rawLines = st.rawLines ++ ls := by
  induction ls with
  | nil => intro st n; simp [scanFrom]
  | cons l rest ih =>
    intro st n
    rw [scanFrom, ih, scanStep_rawLines, List.append_assoc]
    rfl

/-- The occurrence index after a full scan. -/
theorem scanLines_keyEntries (lines : List (List Char)) (k : List Char) :
    (scanLines lines).keyEntries k =
      (if keyOccurrences lines k = [] then none
       else some (keyOccurrences lines k)) := by
  unfold scanLines keyOccurrences
  have h := scanFrom_keyEntries_inv lines initState 1 k [] rfl
  simpa using h

/-- The first-occurrence map after a full scan. -/
theorem scanLines_uniqueEntries (lines : List (List Char)) (k : List Char) :
    (scanLines lines).uniqueEntries k = (keyOccurrences lines k).head? := by
  unfold scanLines keyOccurrences
  have h := scanFrom_uniqueEntries_inv lines initState 1 k [] rfl rfl
  simpa using h

/-- The duplicate map after a full scan. -/
theorem scanLines_duplicateKeys (lines : List (List Char)) (k : List Char) :
    (scanLines lines).duplicateKeys k =
      (if 2 ≤ (keyOccurrences lines k).length
       then some (keyOccurrences lines k) else none) := by
  unfold scanLines keyOccurrences
  have h := scanFrom_duplicateKeys_inv lines initState 1 k [] rfl rfl
  simpa using h

/-- The raw lines retained by a full scan are the input lines. -/
theorem scanLines_rawLines (lines : List (List Char)) :
    (scanLines lines).rawLines = lines := by
  unfold scanLines
  rw [scanFrom_rawLines]
  rfl

/-- C1: after the scan a key is present in `duplicateKeys` exactly when
its occurrence sequence in the occurrence index has length at least two,
and then its group is the full occurrence sequence; the occurrence
sequence is sorted in strictly ascending line-number order; a key with
exactly one occurrence is absent from `duplicateKeys`. -/
theorem duplicateGroups_iff_two_occurrences (lines : List (List Char))
    (key : List Char) :
    (scanLines lines).keyEntries key =
      (if keyOccurrences lines key = [] then none
       else some (keyOccurrences lines key))
    ∧ (scanLines lines).duplicateKeys key =
      (if 2 ≤ (keyOccurrences lines key).length
       then some (keyOccurrences lines key) else none)
    ∧ List.Pairwise (fun a b => a.lineNum < b.lineNum)
        (keyOccurrences lines key) :=
  ⟨scanLines_keyEntries lines key, scanLines_duplicateKeys lines key,
    keyOccurrencesFrom_pairwise⟩

/-- C6: the first-occurrence map stores the head of the occurrence
sequence, and this stored entry's line number is minimal among all of
that key's occurrences. -/
theorem firstOccurrences_min (lines : List (List Char)) (key : List Char) :
    (scanLines lines).uniqueEntries key = (keyOccurrences lines key).head?
    ∧ ∀ first, (scanLines lines).uniqueEntries key = some first →
        ∀ e ∈ keyOccurrences lines key, first.lineNum ≤ e.lineNum := by
  refine ⟨scanLines_uniqueEntries lines key, ?_⟩
  intro first hfirst e he
  rw [scanLines_uniqueEntries lines key] at hfirst
  cases hocc : keyOccurrences lines key with
  | nil =>
    rw [hocc] at hfirst
    exact absurd hfirst (by simp)
  | cons o os =>
    rw [hocc] at hfirst
    have ho : o = first := by simpa using hfirst
    subst ho
    rw [hocc] at he
    have hpair : List.Pairwise (fun a b => a.lineNum < b.lineNum) (o :: os) := by
      rw [← hocc]
      exact keyOccurrencesFrom_pairwise
    rcases List.mem_cons.mp he with rfl | hmem
    · exact Nat.le_refl _
    · exact Nat.le_of_lt ((List.pairwise_cons.mp hpair).1 e hmem)

/-- Witness for C6 at a concrete duplicated key. -/
theorem firstOccurrences_min_witness :
    (⟨("A").data, ("x").data, 1⟩ : KeyValue).lineNum ≤
      (⟨("A").data, ("y").data, 2⟩ : KeyValue).lineNum :=
  (firstOccurrences_min [("\"A\" = \"x\";").data, ("\"A\" = \"y\";").data]
      (("A").data)).2 ⟨("A").data, ("x").data, 1⟩ (by decide)
    ⟨("A").data, ("y").data, 2⟩ (by decide)

/-- The same-value check succeeds exactly when every occurrence's value
equals the first occurrence's value. -/
theorem allSameValues_iff (first : KeyValue) (rest : List KeyValue) :
    allSameValues (first :: rest) = true ↔
      ∀ e ∈ first :: rest, e.value = first.value := by
  unfold allSameValues
  rw [List.all_eq_true]
  constructor
  · intro hall e he
    rcases List.mem_cons.mp he with rfl | hmem
    · rfl
    · simpa using hall e hmem
  · intro hall e he
    simp only [beq_iff_eq]
    exact hall e (List.mem_cons_of_mem first he)

/-- The same-value check fails exactly when some occurrence's value
differs from the first occurrence's value. -/
theorem allSameValues_false_iff (first : KeyValue) (rest : List KeyValue) :
    allSameValues (first :: rest) = false ↔
      ∃ e ∈ first :: rest, e.value ≠ first.value := by
  rw [Bool.eq_false_iff]
  simp only [ne_eq, allSameValues_iff]
  push_neg
  rfl

/-- C3: for every key of `duplicateKeys`, the reported classification is
same-value exactly when all occurrences' values equal the first
occurrence's value under exact string equality, and conflicting exactly
when some occurrence's value differs. -/
theorem duplicate_classification (lines : List (List Char)) (key : List Char)
    (entries : List KeyValue)
    (h : (scanLines lines).duplicateKeys key = some entries) :
    ∃ first rest, entries = first :: rest
      ∧ (allSameValues entries = true ↔ ∀ e ∈ entries, e.value = first.value)
      ∧ (allSameValues entries = false ↔ ∃ e ∈ entries, e.value ≠ first.value) := by
  rw [scanLines_duplicateKeys] at h
  by_cases hlen : 2 ≤ (keyOccurrences lines key).length
  · rw [if_pos hlen] at h
    have heq := Option.some.inj h
    cases entries with
    | nil =>
      rw [heq] at hlen
      simp at hlen
    | cons first rest =>
      exact ⟨first, rest, rfl, allSameValues_iff first rest,
        allSameValues_false_iff first rest⟩
  · rw [if_neg hlen] at h
    exact absurd h (by simp)

/-- Witness for C3 at a concrete conflicting duplicate group. -/
theorem duplicate_classification_witness :
    ∃ first rest,
      ([⟨("A").data, ("x").data, 1⟩, ⟨("A").data, ("y").data, 2⟩] : List KeyValue)
        = first :: rest
      ∧ (allSameValues [⟨("A").data, ("x").data, 1⟩, ⟨("A").data, ("y").data, 2⟩]
          = true ↔ ∀ e ∈ ([⟨("A").data, ("x").data, 1⟩,
            ⟨("A").data, ("y").data, 2⟩] : List KeyValue), e.value = first.value)
      ∧ (allSameValues [⟨("A").data, ("x").data, 1⟩, ⟨("A").data, ("y").data, 2⟩]
          = false ↔ ∃ e ∈ ([⟨("A").data, ("x").data, 1⟩,
            ⟨("A").data, ("y").data, 2⟩] : List KeyValue), e.value ≠ first.value) :=
  duplicate_classification [("\"A\" = \"x\";").data, ("\"A\" = \"y\";").data]
    (("A").data) _ (by decide)

/-- Cleaning step over a non-Entry line: written as-is. -/
theorem cleanGo_cons_not_entry {w : List (List Char)} {l : List Char}
    {rest : List (List Char)}
    (hc : classifyLine l = .passthrough ∨ classifyLine l = .unrecognized) :
    cleanGo w (l :: rest) = l :: cleanGo w rest := by
  rcases hc with h | h <;> rw [cleanGo, h]

/-- Cleaning step over an Entry line whose key was already written. -/
theorem cleanGo_cons_entry_mem {w : List (List Char)} {l k v : List Char}
    {rest : List (List Char)} (hc : classifyLine l = .entry k v) (hm : k ∈ w) :
    cleanGo w (l :: rest) = cleanGo w rest := by
  rw [cleanGo, hc]
  dsimp only
  rw [if_pos hm]

/-- Cleaning step over an Entry line whose key is new. -/
theorem cleanGo_cons_entry_not_mem {w : List (List Char)} {l k v : List Char}
    {rest : List (List Char)} (hc : classifyLine l = .entry k v) (hm : k ∉ w) :
    cleanGo w (l :: rest) = l :: cleanGo (k :: w) rest := by
  rw [cleanGo, hc]
  dsimp only
  rw [if_neg hm]

/-- An Entry classification makes `isEntryLine` true. -/
theorem isEntryLine_of_entry {l k v : List Char}
    (hc : classifyLine l = .entry k v) : isEntryLine l = true := by
  unfold isEntryLine
  rw [hc]

/-- A non-Entry classification makes `isEntryLine` false. -/
theorem isEntryLine_of_not_entry {l : List Char}
    (hc : classifyLine l = .passthrough ∨ classifyLine l = .unrecognized) :
    isEntryLine l = false := by
  unfold isEntryLine
  rcases hc with h | h <;> rw [h]

/-- Entry keys of a cons with an Entry head. -/
theorem entryKeys_cons_entry {l k v : List Char} {rest : List (List Char)}
    (hc : classifyLine l = .entry k v) :
    entryKeys (l :: rest) = k :: entryKeys rest := by
  unfold entryKeys
  rw [List.filterMap_cons, hc]

/-- Entry keys of a cons with a non-Entry head. -/
theorem entryKeys_cons_not_entry {l : List Char} {rest : List (List Char)}
    (hc : classifyLine l = .passthrough ∨ classifyLine l = .unrecognized) :
    entryKeys (l :: rest) = entryKeys rest := by
  unfold entryKeys
  rcases hc with h | h <;> rw [List.filterMap_cons, h]

/-- Entry keys distribute over append. -/
theorem entryKeys_append (a b : List (List Char)) :
    entryKeys (a ++ b) = entryKeys a ++ entryKeys b := by
  unfold entryKeys
  rw [List.filterMap_append]

/-- The cleaned output is a sublist of the raw lines. -/
theorem cleanGo_sublist (ls : List (List Char)) :
    ∀ w : List (List Char), (cleanGo w ls).Sublist ls := by
  induction ls with
  | nil => intro w; exact List.Sublist.refl []
  | cons l rest ih =>
    intro w
    cases hc : classifyLine l with
    | passthrough =>
      rw [cleanGo_cons_not_entry (Or.inl hc)]
      exact (ih w).cons₂ l
    | unrecognized =>
      rw [cleanGo_cons_not_entry (Or.inr hc)]
      exact (ih w).cons₂ l
    | entry k v =>
      by_cases hm : k ∈ w
      · rw [cleanGo_cons_entry_mem hc hm]
        exact (ih w).cons l
      · rw [cleanGo_cons_entry_not_mem hc hm]
        exact (ih (k :: w)).cons₂ l

/-- Cleaning preserves exactly the non-Entry lines. -/
theorem cleanGo_filter_not_entry (ls : List (List Char)) :
    ∀ w : List (List Char),
      (cleanGo w ls).filter (fun l => !isEntryLine l) =
        ls.filter (fun l => !isEntryLine l) := by
  induction ls with
  | nil => intro w; rfl
  | cons l rest ih =>
    intro w
    cases hc : classifyLine l with
    | passthrough =>
      rw [cleanGo_cons_not_entry (Or.inl hc),
        List.filter_cons_of_pos (by rw [isEntryLine_of_not_entry (Or.inl hc)]; rfl),
        List.filter_cons_of_pos (by rw [isEntryLine_of_not_entry (Or.inl hc)]; rfl),
        ih w]
    | unrecognized =>
      rw [cleanGo_cons_not_entry (Or.inr hc),
        List.filter_cons_of_pos (by rw [isEntryLine_of_not_entry (Or.inr hc)]; rfl),
        List.filter_cons_of_pos (by rw [isEntryLine_of_not_entry (Or.inr hc)]; rfl),
        ih w]
    | entry k v =>
      by_cases hm : k ∈ w
      · rw [cleanGo_cons_entry_mem hc hm, ih w,
          List.filter_cons_of_neg (by rw [isEntryLine_of_entry hc]; simp)]
      · rw [cleanGo_cons_entry_not_mem hc hm,
          List.filter_cons_of_neg (by rw [isEntryLine_of_entry hc]; simp),
          List.filter_cons_of_neg (by rw [isEntryLine_of_entry hc]; simp),
          ih (k :: w)]

/-- The Entry keys of the cleaned output deduplicate the raw Entry keys
relative to the already-written set. -/
theorem entryKeys_cleanGo (ls : List (List Char)) :
    ∀ w : List (List Char),
      entryKeys (cleanGo w ls) = dedupFrom w (entryKeys ls) := by
  induction ls with
  | nil => intro w; rfl
  | cons l rest ih =>
    intro w
    cases hc : classifyLine l with
    | passthrough =>
      rw [cleanGo_cons_not_entry (Or.inl hc), entryKeys_cons_not_entry (Or.inl hc),
        entryKeys_cons_not_entry (Or.inl hc), ih w]
    | unrecognized =>
      rw [cleanGo_cons_not_entry (Or.inr hc), entryKeys_cons_not_entry (Or.inr hc),
        entryKeys_cons_not_entry (Or.inr hc), ih w]
    | entry k v =>
      by_cases hm : k ∈ w
      · rw [cleanGo_cons_entry_mem hc hm, entryKeys_cons_entry hc, ih w,
          dedupFrom, if_pos hm]
      · rw [cleanGo_cons_entry_not_mem hc hm, entryKeys_cons_entry hc,
          entryKeys_cons_entry hc, ih (k :: w), dedupFrom, if_neg hm]

/-- Membership in first-occurrence deduplication. -/
theorem mem_dedupFrom (ks : List (List Char)) :
    ∀ (seen : List (List Char)) (k : List Char),
      k ∈ dedupFrom seen ks ↔ (k ∈ ks ∧ k ∉ seen) := by
  induction ks with
  | nil => intro seen k; simp [dedupFrom]
  | cons k0 rest ih =>
    intro seen k
    rw [dedupFrom]
    by_cases hm : k0 ∈ seen
    · rw [if_pos hm, ih seen k]
      constructor
      · rintro ⟨h1, h2⟩
        exact ⟨List.mem_cons_of_mem k0 h1, h2⟩
      · rintro ⟨h1, h2⟩
        rcases List.mem_cons.mp h1 with rfl | h3
        · exact absurd hm h2
        · exact ⟨h3, h2⟩
    · rw [if_neg hm]
      by_cases hk : k = k0
      · subst hk
        simp [hm]
      · constructor
        · intro h1
          rcases List.mem_cons.mp h1 with h2 | h2
          · exact absurd h2 hk
          · obtain ⟨h3, h4⟩ := (ih (k0 :: seen) k).mp h2
            exact ⟨List.mem_cons_of_mem k0 h3,
              fun h5 => h4 (List.mem_cons_of_mem k0 h5)⟩
        · rintro ⟨h1, h2⟩
          rcases List.mem_cons.mp h1 with h3 | h3
          · exact absurd h3 hk
          · exact List.mem_cons_of_mem k0 ((ih (k0 :: seen) k).mpr
              ⟨h3, fun h4 => (List.mem_cons.mp h4).elim hk h2⟩)

/-- First-occurrence deduplication has no duplicates. -/
theorem nodup_dedupFrom (ks : List (List Char)) :
    ∀ seen : List (List Char), (dedupFrom seen ks).Nodup := by
  induction ks with
  | nil => intro seen; exact List.nodup_nil
  | cons k0 rest ih =>
    intro seen
    rw [dedupFrom]
    by_cases hm : k0 ∈ seen
    · rw [if_pos hm]; exact ih seen
    · rw [if_neg hm]
      refine List.Nodup.cons ?_ (ih (k0 :: seen))
      intro hmem
      exact ((mem_dedupFrom rest (k0 :: seen) k0).mp hmem).2
        (List.mem_cons_self k0 seen)

/-- A non-Entry line always satisfies the keep condition. -/
theorem keepLine_not_entry {prev : List (List Char)} {l : List Char}
    (hc : classifyLine l = .passthrough ∨ classifyLine l = .unrecognized) :
    keepLine prev l = true := by
  unfold keepLine
  rcases hc with h | h <;> rw [h]

/-- An Entry line satisfies the keep condition exactly when its key has
no earlier Entry occurrence. -/
theorem keepLine_entry {prev : List (List Char)} {l k v : List Char}
    (hc : classifyLine l = .entry k v) :
    keepLine prev l = !(decide (k ∈ entryKeys prev)) := by
  unfold keepLine
  rw [hc]

/-- The written-keys loop equals the positional formulation whenever the
written set has the same members as the keys of the lines already
processed. -/
theorem cleanGo_eq_prefixFilter (ls : List (List Char)) :
    ∀ (w prev : List (List Char)), (∀ k, k ∈ w ↔ k ∈ entryKeys prev) →
      cleanGo w ls = prefixFilter prev ls := by
  induction ls with
  | nil => intro w prev hwp; rfl
  | cons l rest ih =>
    intro w prev hwp
    have hkeys : ∀ k0 v0, classifyLine l = .entry k0 v0 →
        entryKeys (prev ++ [l]) = entryKeys prev ++ [k0] := by
      intro k0 v0 hc
      rw [entryKeys_append, entryKeys_cons_entry hc]
      rfl
    cases hc : classifyLine l with
    | passthrough =>
      rw [cleanGo_cons_not_entry (Or.inl hc), prefixFilter,
        if_pos (keepLine_not_entry (Or.inl hc))]
      refine congrArg _ (ih w (prev ++ [l]) ?_)
      intro k
      rw [entryKeys_append, entryKeys_cons_not_entry (Or.inl hc)]
      simpa [entryKeys] using hwp k
    | unrecognized =>
      rw [cleanGo_cons_not_entry (Or.inr hc), prefixFilter,
        if_pos (keepLine_not_entry (Or.inr hc))]
      refine congrArg _ (ih w (prev ++ [l]) ?_)
      intro k
      rw [entryKeys_append, entryKeys_cons_not_entry (Or.inr hc)]
      simpa [entryKeys] using hwp k
    | entry k0 v0 =>
      have hmemkeys : ∀ k, k ∈ entryKeys (prev ++ [l]) ↔
          (k ∈ entryKeys prev ∨ k = k0) := by
        intro k
        rw [hkeys k0 v0 hc, List.mem_append]
        simp
      by_cases hm : k0 ∈ w
      · have hkeep : keepLine prev l = false := by
          rw [keepLine_entry hc]
          simp [(hwp k0).mp hm]
        rw [cleanGo_cons_entry_mem hc hm, prefixFilter, if_neg (by rw [hkeep]; simp)]
        refine ih w (prev ++ [l]) ?_
        intro k
        rw [hmemkeys k]
        constructor
        · intro h1; exact Or.inl ((hwp k).mp h1)
        · rintro (h1 | rfl)
          · exact (hwp k).mpr h1
          · exact hm
      · have hnotin : k0 ∉ entryKeys prev := fun h => hm ((hwp k0).mpr h)
        have hkeep : keepLine prev l = true := by
          rw [keepLine_entry hc]
          simp [hnotin]
        rw [cleanGo_cons_entry_not_mem hc hm, prefixFilter, if_pos hkeep]
        refine congrArg _ (ih (k0 :: w) (prev ++ [l]) ?_)
        intro k
        rw [hmemkeys k, List.mem_cons]
        constructor
        · rintro (rfl | h1)
          · exact Or.inr rfl
          · exact Or.inl ((hwp k).mp h1)
        · rintro (h1 | rfl)
          · exact Or.inr ((hwp k).mpr h1)
          · exact Or.inl rfl

/-- Cleaning lines whose Entry keys are fresh and duplicate-free changes
nothing. -/
theorem cleanGo_id (ls : List (List Char)) :
    ∀ w : List (List Char), (∀ k ∈ entryKeys ls, k ∉ w) →
      (entryKeys ls).Nodup → cleanGo w ls = ls := by
  induction ls with
  | nil => intro w _ _; rfl
  | cons l rest ih =>
    intro w hfresh hnodup
    cases hc : classifyLine l with
    | passthrough =>
      rw [entryKeys_cons_not_entry (Or.inl hc)] at hfresh hnodup
      rw [cleanGo_cons_not_entry (Or.inl hc), ih w hfresh hnodup]
    | unrecognized =>
      rw [entryKeys_cons_not_entry (Or.inr hc)] at hfresh hnodup
      rw [cleanGo_cons_not_entry (Or.inr hc), ih w hfresh hnodup]
    | entry k v =>
      rw [entryKeys_cons_entry hc] at hfresh hnodup
      have hm : k ∉ w := hfresh k (List.mem_cons_self k _)
      rw [cleanGo_cons_entry_not_mem hc hm]
      refine congrArg _ (ih (k :: w) ?_ (List.Nodup.of_cons hnodup))
      intro k1 h1
      rw [List.mem_cons]
      rintro (rfl | h2)
      · exact (List.nodup_cons.mp hnodup).1 h1
      · exact hfresh k1 (List.mem_cons_of_mem k h1) h2

/-- Splitting after a newline-free prefix peels that prefix off. -/
theorem splitOnNL_no_nl_append {l : List Char} (hl : '\n' ∉ l) (t : List Char) :
    splitOnNL (l ++ '\n' :: t) = l :: splitOnNL t := by
  induction l with
  | nil =>
    rw [List.nil_append, splitOnNL, if_pos rfl]
  | cons c cl ih =>
    have hc : ¬ c = '\n' := fun h => hl (h ▸ List.mem_cons_self c cl)
    have hcl : '\n' ∉ cl := fun h => hl (List.mem_cons_of_mem c h)
    rw [List.cons_append, splitOnNL, if_neg hc, ih hcl]

/-- Splitting rendered newline-free lines recovers them plus the empty
token after the final newline. -/
theorem splitOnNL_render {ls : List (List Char)} (h : ∀ l ∈ ls, '\n' ∉ l) :
    splitOnNL (renderLines ls) = ls ++ [[]] := by
  induction ls with
  | nil => rfl
  | cons l rest ih =>
    rw [renderLines, splitOnNL_no_nl_append (h l (List.mem_cons_self l rest)),
      ih (fun x hx => h x (List.mem_cons_of_mem l hx))]
    rfl

/-- `dropCR` keeps a line without a trailing carriage return. -/
theorem dropCR_id {l : List Char} (h : l.getLast? ≠ some '\r') : dropCR l = l := by
  unfold dropCR
  rw [if_neg h]

/-- `dropCR` mapped over lines without trailing carriage returns. -/
theorem map_dropCR_id {ls : List (List Char)}
    (h : ∀ l ∈ ls, l.getLast? ≠ some '\r') : ls.map dropCR = ls := by
  induction ls with
  | nil => rfl
  | cons l rest ih =>
    rw [List.map_cons, dropCR_id (h l (List.mem_cons_self l rest)),
      ih (fun x hx => h x (List.mem_cons_of_mem l hx))]

/-- Reading back a rendered file recovers the same line sequence. -/
theorem splitLines_render {ls : List (List Char)}
    (h : ∀ l ∈ ls, ('\n' ∉ l) ∧ l.getLast? ≠ some '\r') :
    splitLines (renderLines ls) = ls := by
  unfold splitLines
  rw [splitOnNL_render (fun l hl => (h l hl).1)]
  dsimp only
  rw [show (ls ++ [([] : List Char)]).getLast? = some [] from by simp,
    if_pos rfl,
    show (ls ++ [([] : List Char)]).dropLast = ls from by simp]
  exact map_dropCR_id (fun l hl => (h l hl).2)

/-- C4: the cleaned output keeps each line exactly when it is non-Entry
or its key has no earlier Entry occurrence; hence it is a subsequence of
the input in unchanged relative order, all passthrough and unrecognized
lines survive, and its Entry keys are the input's distinct Entry keys,
each exactly once. -/
theorem clean_file_properties (raw : List (List Char)) :
    cleanLines raw = prefixFilter [] raw
    ∧ (cleanLines raw).Sublist raw
    ∧ (cleanLines raw).filter (fun l => !isEntryLine l) =
        raw.filter (fun l => !isEntryLine l)
    ∧ entryKeys (cleanLines raw) = dedupFrom [] (entryKeys raw)
    ∧ (entryKeys (cleanLines raw)).Nodup
    ∧ (∀ k, k ∈ entryKeys (cleanLines raw) ↔ k ∈ entryKeys raw) := by
  refine ⟨?_, cleanGo_sublist raw [], cleanGo_filter_not_entry raw [],
    entryKeys_cleanGo raw [], ?_, ?_⟩
  · exact cleanGo_eq_prefixFilter raw [] []
      (by intro k; simp [entryKeys])
  · unfold cleanLines
    rw [entryKeys_cleanGo raw []]
    exact nodup_dedupFrom _ _
  · intro k
    unfold cleanLines
    rw [entryKeys_cleanGo raw [], mem_dedupFrom]
    simp

/-- Witness for C4 at a concrete duplicated input. -/
theorem clean_file_properties_witness :
    ("A").data ∈ entryKeys (cleanLines [("\"A\" = \"1\";").data,
        ("\"A\" = \"1\";").data]) ↔
      ("A").data ∈ entryKeys [("\"A\" = \"1\";").data, ("\"A\" = \"1\";").data] :=
  (clean_file_properties [("\"A\" = \"1\";").data,
    ("\"A\" = \"1\";").data]).2.2.2.2.2 (("A").data)

/-- C5: cleaning is idempotent — the cleaner applied to its own output
changes nothing, and at the byte level, rendering, re-reading and
re-cleaning the cleaned file reproduces its content exactly. -/
theorem cleaning_idempotent (raw : List (List Char)) :
    cleanLines (cleanLines raw) = cleanLines raw
    ∧ ((∀ l ∈ raw, ('\n' ∉ l) ∧ l.getLast? ≠ some '\r') →
        renderLines (cleanLines (splitLines (renderLines (cleanLines raw)))) =
          renderLines (cleanLines raw)) := by
  have hnodup : (entryKeys (cleanLines raw)).Nodup := by
    unfold cleanLines
    rw [entryKeys_cleanGo raw []]
    exact nodup_dedupFrom _ _
  have hid : cleanLines (cleanLines raw) = cleanLines raw :=
    cleanGo_id (cleanGo [] raw) [] (by intro k hk; simp) hnodup
  refine ⟨hid, ?_⟩
  intro hgood
  have hgood2 : ∀ l ∈ cleanLines raw, ('\n' ∉ l) ∧ l.getLast? ≠ some '\r' :=
    fun l hl => hgood l ((cleanGo_sublist raw []).subset hl)
  rw [splitLines_render hgood2, hid]

/-- The C5 counterexample: byte-level idempotence fails on reachable
scanner output.  The file content `x\r\r\n` is read by the scanner as
the single line `x\r` (one carriage return stripped); the first clean
pass writes `x\r\n`, but re-reading that output strips the remaining
carriage return, so the second clean pass writes `x\n` — not
byte-identical to its input. -/
theorem cleaning_idempotent_counterexample :
    splitLines (("x\r\r\n").data) = [("x\r").data]
    ∧ renderLines (cleanLines (splitLines (("x\r\r\n").data))) = ("x\r\n").data
    ∧ renderLines (cleanLines (splitLines (renderLines (cleanLines
        (splitLines (("x\r\r\n").data)))))) = ("x\n").data
    ∧ ("x\n").data ≠ ("x\r\n").data := by
  refine ⟨by decide, by decide, by decide, by decide⟩

/-- Witness for C5 at a concrete duplicated input. -/
theorem cleaning_idempotent_witness :
    renderLines (cleanLines (splitLines (renderLines (cleanLines
        [("\"A\" = \"1\";").data, ("\"A\" = \"1\";").data])))) =
      renderLines (cleanLines [("\"A\" = \"1\";").data,
        ("\"A\" = \"1\";").data]) :=
  (cleaning_idempotent [("\"A\" = \"1\";").data, ("\"A\" = \"1\";").data]).2
    (by decide)

/-- C7: the raw line sequence retained by the analyzer is the input
verbatim, and every line that does not classify as an Entry — blank,
comment, or unrecognized — survives cleaning byte-identically. -/
theorem passthrough_lines_preserved (lines : List (List Char)) :
    (scanLines lines).rawLines = lines
    ∧ (cleanLines lines).filter (fun l => !isEntryLine l) =
        lines.filter (fun l => !isEntryLine l)
    ∧ (∀ l ∈ lines, isEntryLine l = false → l ∈ cleanLines lines) := by
  refine ⟨scanLines_rawLines lines, cleanGo_filter_not_entry lines [], ?_⟩
  intro l hl he
  have h1 : l ∈ lines.filter (fun x => !isEntryLine x) :=
    List.mem_filter.mpr ⟨hl, by rw [he]; rfl⟩
  rw [← cleanGo_filter_not_entry lines []] at h1
  exact List.mem_of_mem_filter h1

/-- Witness for C7 at a concrete comment line. -/
theorem passthrough_lines_preserved_witness :
    ("// note").data ∈ cleanLines [("// note").data, ("\"A\" = \"1\";").data] :=
  (passthrough_lines_preserved [("// note").data,
    ("\"A\" = \"1\";").data]).2.2 (("// note").data) (by decide) (by decide)

/-- C9: the analysis returns `fileAccessError` when the file cannot be
opened and `readError` when the scanner reports an I/O error after
delivering some lines; in both error cases the result carries no scan
state at all — the same bare error is returned whatever lines were
delivered before the failure — while a successful read returns the
scanned maps and raw lines. -/
theorem analyze_error_paths :
    analyzeLocalizationFile .openFailure = .error .fileAccessError
    ∧ (∀ lines, analyzeLocalizationFile (.readResult lines true) =
        .error .readError)
    ∧ (∀ lines lines',
        analyzeLocalizationFile (.readResult lines true) =
          analyzeLocalizationFile (.readResult lines' true))
    ∧ (∀ lines, analyzeLocalizationFile (.readResult lines false) =
        .ok ⟨(scanLines lines).duplicateKeys, (scanLines lines).uniqueEntries,
          (scanLines lines).rawLines⟩) :=
  ⟨rfl, fun _ => rfl, fun _ _ => rfl, fun _ => rfl⟩

/-- The C10 counterexample: this line's first (leftmost) quoted pair has
an empty key and an empty value, the line is neither blank nor a
comment, yet it is classified as an Entry taken from a later pair — so a
line whose first quoted pair has an empty component is not always
passthrough. -/
theorem empty_pair_line_counterexample :
    isSkippedLine exMixedPairLine = false
    ∧ looseFirstMatch exMixedPairLine = some ([], [])
    ∧ classifyLine exMixedPairLine = .entry (("a").data) (("b").data) := by
  refine ⟨by decide, by decide, by decide⟩

/-- C10 amended: the matcher requires at least one non-quote character
in both components, so no Entry ever has an empty key or value; a
non-blank non-comment line whose quoted pairs all have an empty
component — such as the two example lines — is unrecognized, contributes
no occurrence to the occurrence index, `countKeys`, or
`findKeyOccurrences`, and survives cleaning verbatim. -/
theorem empty_component_never_entry :
    (∀ line k v, classifyLine line = .entry k v → k ≠ [] ∧ v ≠ [])
    ∧ classifyLine exEmptyValueLine = .unrecognized
    ∧ classifyLine exEmptyKeyLine = .unrecognized
    ∧ (∀ key, (scanLines [exEmptyValueLine, exEmptyKeyLine]).keyEntries key = none)
    ∧ countKeys [exEmptyValueLine, exEmptyKeyLine] = (0, 0)
    ∧ (∀ key, findKeyOccurrences [exEmptyValueLine, exEmptyKeyLine] key = [])
    ∧ cleanLines [exEmptyValueLine, exEmptyKeyLine] =
        [exEmptyValueLine, exEmptyKeyLine] := by
  have h1 : classifyLine exEmptyValueLine = .unrecognized := by decide
  have h2 : classifyLine exEmptyKeyLine = .unrecognized := by decide
  have hent : entriesFrom 1 [exEmptyValueLine, exEmptyKeyLine] = [] := by decide
  refine ⟨?_, h1, h2, ?_, by decide, ?_, by decide⟩
  · intro line k v h
    unfold classifyLine at h
    by_cases hsk : isSkippedLine line
    · rw [if_pos hsk] at h
      exact absurd h (by simp)
    · rw [if_neg hsk] at h
      cases hf : findFirstMatch line with
      | none =>
        rw [hf] at h
        exact absurd h (by simp)
      | some kv =>
        obtain ⟨k0, v0⟩ := kv
        rw [hf] at h
        dsimp only at h
        rw [LineClass.entry.injEq] at h
        obtain ⟨rfl, rfl⟩ := h
        obtain ⟨i, hi, -⟩ := findFirstMatch_eq_some_iff.mp hf
        obtain ⟨ws1, ws2, ws3, rest, hk, -, hv, -⟩ := matchFrom_sound hi
        exact ⟨hk, hv⟩
  · intro key
    rw [scanLines_keyEntries]
    have hocc : keyOccurrences [exEmptyValueLine, exEmptyKeyLine] key = [] := by
      unfold keyOccurrences keyOccurrencesFrom
      rw [hent]
      rfl
    rw [hocc, if_pos rfl]
  · intro key
    simp [findKeyOccurrences, findKeyOccurrencesFrom, h1, h2]

/-- Witness for the amended C10 at a concrete well-formed Entry line. -/
theorem empty_component_never_entry_witness :
    ("A").data ≠ ([] : List Char) ∧ ("1").data ≠ ([] : List Char) :=
  empty_component_never_entry.1 (("\"A\" = \"1\";").data) (("A").data)
    (("1").data) (by decide)

/-- `takeWhile` passes over a fully satisfying prefix. -/
theorem takeWhile_append_all {p : Char → Bool} {l : List Char}
    (hl : ∀ c ∈ l, p c = true) (t : List Char) :
    (l ++ t).takeWhile p = l ++ t.takeWhile p := by
  induction l with
  | nil => rw [List.nil_append, List.nil_append]
  | cons c cl ih =>
    rw [List.cons_append,
      List.takeWhile_cons_of_pos (hl c (List.mem_cons_self c cl)),
      ih (fun x hx => hl x (List.mem_cons_of_mem c hx)), List.cons_append]

/-- When `extRev` is nonempty it is a separator-free prefix of its
input. -/
theorem extRev_spec {r : List Char} (hne : extRev r ≠ []) :
    (∃ a, r = extRev r ++ a) ∧ ∀ c ∈ extRev r, c ≠ '/' := by
  induction r with
  | nil => exact absurd rfl hne
  | cons c rest ih =>
    rw [extRev] at hne ⊢
    by_cases hslash : c = '/'
    · rw [if_pos hslash] at hne
      exact absurd rfl hne
    · rw [if_neg hslash] at hne ⊢
      by_cases hdot : c = '.'
      · rw [if_pos hdot] at hne ⊢
        refine ⟨⟨rest, rfl⟩, ?_⟩
        intro x hx
        rcases List.mem_cons.mp hx with rfl | hx2
        · rw [hdot]
          decide
        · exact absurd hx2 (List.not_mem_nil x)
      · rw [if_neg hdot] at hne ⊢
        cases he : extRev rest with
        | nil =>
          rw [he] at hne
          exact absurd rfl hne
        | cons e es =>
          obtain ⟨⟨a, ha⟩, hmem⟩ := ih (by rw [he]; simp)
          rw [he] at ha hmem
          refine ⟨⟨a, ?_⟩, ?_⟩
          · show c :: rest = (c :: (e :: es)) ++ a
            rw [List.cons_append, ← ha]
          · intro x hx
            have hx2 : x ∈ c :: (e :: es) := hx
            rcases List.mem_cons.mp hx2 with rfl | hx3
            · exact hslash
            · exact hmem x hx3

/-- The extension computed by `goExt` is a suffix of the base name. -/
theorem goExt_suffix_goBase (p : List Char) :
    ∃ stem, goBase p = stem ++ goExt p := by
  cases he : extRev p.reverse with
  | nil =>
    refine ⟨goBase p, ?_⟩
    unfold goExt
    rw [he, List.reverse_nil, List.append_nil]
  | cons c cs =>
    obtain ⟨⟨a, ha⟩, hmem⟩ := extRev_spec (r := p.reverse) (by rw [he]; simp)
    rw [he] at ha hmem
    have hc : c ≠ '/' := hmem c (List.mem_cons_self c cs)
    have hpne : p ≠ [] := by
      intro h0
      rw [h0] at ha
      simp at ha
    have hrev : p.reverse = c :: (cs ++ a) := by
      rw [ha, List.cons_append]
    have hstrip : stripTrailingSlashes p = p := by
      unfold stripTrailingSlashes
      rw [hrev, List.dropWhile_cons_of_neg (by simp [hc]), ← hrev,
        List.reverse_reverse]
    have htake : p.reverse.takeWhile (fun x => x != '/') =
        (c :: cs) ++ a.takeWhile (fun x => x != '/') := by
      rw [ha]
      exact takeWhile_append_all (fun x hx => by simpa using hmem x hx) a
    refine ⟨(a.takeWhile (fun x => x != '/')).reverse, ?_⟩
    unfold goBase
    rw [if_neg hpne, hstrip]
    unfold lastElement
    rw [htake, List.reverse_append]
    have hne2 : (a.takeWhile (fun x => x != '/')).reverse ++
        (c :: cs).reverse ≠ [] := by simp
    rw [if_neg hne2]
    unfold goExt
    rw [he]

/-- Trimming a suffix off removes exactly that suffix. -/
theorem trimSuffix_of_suffix (stem ext : List Char) :
    trimSuffix (stem ++ ext) ext = stem := by
  unfold trimSuffix
  have hsuf : ext.isSuffixOf (stem ++ ext) = true :=
    List.isSuffixOf_iff_suffix.mpr (List.suffix_append stem ext)
  rw [if_pos hsuf, List.length_append]
  have harith : stem.length + ext.length - ext.length = stem.length := by omega
  rw [harith]
  exact List.take_left stem ext

/-- C8: a clean request whose destination equals the source after
`filepath.Clean` normalization is rejected as a configuration error
before any cleaned content is produced, and the rejection carries the
suggested alternative filename — the original name with `-cleaned`
inserted between the stem and the extension. -/
theorem same_path_clean_rejected (inputFile cleanFile : List Char)
    (raw : List (List Char)) (h : goClean cleanFile = goClean inputFile) :
    handleCleanRequest inputFile cleanFile raw =
      .rejected (createUniqueFilename inputFile)
    ∧ ∃ stem, goBase inputFile = stem ++ goExt inputFile
        ∧ createUniqueFilename inputFile =
          goJoin (goDir inputFile)
            (stem ++ ('-' :: ('c' :: ('l' :: ('e' :: ('a' :: ('n' :: ('e' ::
              ('d' :: goExt inputFile))))))))) := by
  constructor
  · unfold handleCleanRequest
    rw [if_pos h]
  · obtain ⟨stem, hstem⟩ := goExt_suffix_goBase inputFile
    refine ⟨stem, hstem, ?_⟩
    unfold createUniqueFilename
    dsimp only
    rw [hstem, trimSuffix_of_suffix]

/-- Witness for C8 at a concrete same-path request. -/
theorem same_path_clean_rejected_witness :
    handleCleanRequest (("Localizable.strings").data)
        (("./Localizable.strings").data) [] =
      .rejected (createUniqueFilename (("Localizable.strings").data))
    ∧ createUniqueFilename (("Localizable.strings").data) =
        ("Localizable-cleaned.strings").data :=
  ⟨(same_path_clean_rejected (("Localizable.strings").data)
      (("./Localizable.strings").data) [] (by decide)).1, by decide⟩

end LocAnalyzer
